import Mathlib

/-!
Verification of the Speck128/128 block cipher implementation
(src/src/lib.rs and src/src/cipher_modes.rs).

The Rust code works on the machine types u64 and u128.  Here a u64 value
is a natural number below 2^64 and a u128 value is a natural number below
2^128; every wrapping operation carries an explicit reduction modulo the
corresponding power of two.  The in-place mutation of the half-blocks in
the Rust code is re-expressed as pure functions returning pairs, exactly
as the spec itself suggests.
-/

namespace Speck128

/-- Rust constant ALPHA (src/src/lib.rs, line 16): rotation amount 8. -/
def ALPHA : Nat := 8

/-- Rust constant BETA (src/src/lib.rs, line 17): rotation amount 3. -/
def BETA : Nat := 3

/-- Rust constant ROUNDS (src/src/lib.rs, line 18): 32 rounds. -/
def ROUNDS : Nat := 32

/-- Model of the Rust primitive u64::rotate_right: the bits shifted out on
the right wrap around to the left.  The rotation amount is taken modulo the
bit width 64, as in Rust. -/
def rotr64 (x n : Nat) : Nat := ((x >>> (n % 64)) ||| (x <<< (64 - n % 64))) % 2^64

/-- Model of the Rust primitive u64::rotate_left: the bits shifted out on
the left wrap around to the right.  The rotation amount is taken modulo the
bit width 64, as in Rust. -/
def rotl64 (x n : Nat) : Nat := ((x <<< (n % 64)) ||| (x >>> (64 - n % 64))) % 2^64

/-- Model of the Rust primitive u64::wrapping_add: addition modulo 2^64. -/
def wrapping_add64 (a b : Nat) : Nat := (a + b) % 2^64

/-- Model of the Rust primitive u64::wrapping_sub: subtraction modulo 2^64,
written on Nat as addition of the complement of the subtrahend. -/
def wrapping_sub64 (a b : Nat) : Nat := (a + (2^64 - b % 2^64)) % 2^64

/-- Embedding of fn round (src/src/lib.rs, lines 26..29):
x is replaced by x.rotate_right(ALPHA).wrapping_add(y) XOR k, and then
y is replaced by y.rotate_left(BETA) XOR the new x. -/
def round (x y k : Nat) : Nat × Nat :=
  let x2 := (wrapping_add64 (rotr64 x ALPHA) y) ^^^ k
  let y2 := (rotl64 y BETA) ^^^ x2
  (x2, y2)

/-- Embedding of fn inv_round (src/src/lib.rs, lines 38..41):
y is replaced by (y XOR x).rotate_right(BETA), and then
x is replaced by ((x XOR k).wrapping_sub(new y)).rotate_left(ALPHA). -/
def inv_round (x y k : Nat) : Nat × Nat :=
  let y2 := rotr64 (y ^^^ x) BETA
  let x2 := rotl64 (wrapping_sub64 (x ^^^ k) y2) ALPHA
  (x2, y2)

/-- Embedding of the loop body sequence of fn key_schedule
(src/src/lib.rs, lines 45..52): starting at loop index i with the given
fuel, record the current k2 and advance the pair with round, using the
loop index itself as the key argument. -/
def scheduleFrom : Nat → Nat → Nat → Nat → List Nat
  | 0, _, _, _ => []
  | fuel + 1, i, k1, k2 => k2 :: scheduleFrom fuel (i + 1) (round k1 k2 i).1 (round k1 k2 i).2

/-- Embedding of fn key_schedule (src/src/lib.rs, lines 45..52): the list
of the ROUNDS recorded subkeys, in generation order. -/
def key_schedule (k1 k2 : Nat) : List Nat := scheduleFrom ROUNDS 0 k1 k2

/-- Embedding of the tuple struct Speck (src/src/lib.rs, line 58): it owns
the expanded round-key schedule. -/
structure Speck where
  schedule : List Nat

/-- Embedding of Speck::new (src/src/lib.rs, lines 61..66): split the
128-bit key into the high half k1 and the low half k2 (the casts to u64
are the reductions modulo 2^64) and run the key schedule. -/
def Speck.new (key : Nat) : Speck :=
  Speck.mk (key_schedule ((key >>> 64) % 2^64) (key % 2^64))

/-- Embedding of the block recombination (src/src/lib.rs, lines 84 and
101): chunk_2 as u128 OR (chunk_1 as u128) shifted left by 64.  The first
argument is chunk_1 (high half), the second is chunk_2 (low half). -/
def combine128 (x y : Nat) : Nat := y ||| (x <<< 64)

/-- Embedding of the fold of fn round over the round keys in
Speck::encrypt (src/src/lib.rs, lines 78..81). -/
def encryptRounds (ks : List Nat) (p : Nat × Nat) : Nat × Nat :=
  ks.foldl (fun q k => round q.1 q.2 k) p

/-- Embedding of the fold of fn inv_round over a list of round keys, as in
Speck::decrypt (src/src/lib.rs, lines 95..98). -/
def decryptRounds (ks : List Nat) (p : Nat × Nat) : Nat × Nat :=
  ks.foldl (fun q k => inv_round q.1 q.2 k) p

/-- Embedding of Speck::encrypt (src/src/lib.rs, lines 73..85): split the
plaintext into two u64 chunks, apply round once per schedule entry in
schedule order, and recombine. -/
def Speck.encrypt (s : Speck) (plaintext : Nat) : Nat :=
  let c := encryptRounds s.schedule ((plaintext >>> 64) % 2^64, plaintext % 2^64)
  combine128 c.1 c.2

/-- Embedding of Speck::decrypt (src/src/lib.rs, lines 90..102): split the
ciphertext into two u64 chunks, apply inv_round once per schedule entry in
reverse schedule order, and recombine. -/
def Speck.decrypt (s : Speck) (ciphertext : Nat) : Nat :=
  let c := decryptRounds s.schedule.reverse ((ciphertext >>> 64) % 2^64, ciphertext % 2^64)
  combine128 c.1 c.2

/-- Embedding of trait ECB (src/src/cipher_modes.rs, lines 6..9): a
capability record with one encryption and one decryption operation on
128-bit blocks. -/
structure ECB (C : Type) where
  encrypt : C → Nat → Nat
  decrypt : C → Nat → Nat

/-- Embedding of impl ECB for Speck (src/src/lib.rs, lines 105..113): both
operations forward directly to the raw Speck methods. -/
def speckECB : ECB Speck :=
  ECB.mk (fun s plaintext => s.encrypt plaintext) (fun s ciphertext => s.decrypt ciphertext)

/-! Helper lemmas: bit-level facts about rotations, splitting and
recombination, and boundedness of the word-level operations. -/

lemma testBit_high {w x j : Nat} (hx : x < 2^w) (hj : w ≤ j) : x.testBit j = false :=
  Nat.testBit_eq_false_of_lt (lt_of_lt_of_le hx (Nat.pow_le_pow_right (by norm_num) hj))

lemma rotr64_lt (x n : Nat) : rotr64 x n < 2^64 := by
  unfold rotr64; exact Nat.mod_lt _ (by norm_num)

lemma rotl64_lt (x n : Nat) : rotl64 x n < 2^64 := by
  unfold rotl64; exact Nat.mod_lt _ (by norm_num)

lemma wrapping_add64_lt (a b : Nat) : wrapping_add64 a b < 2^64 := by
  unfold wrapping_add64; exact Nat.mod_lt _ (by norm_num)

lemma wrapping_sub64_lt (a b : Nat) : wrapping_sub64 a b < 2^64 := by
  unfold wrapping_sub64; exact Nat.mod_lt _ (by norm_num)

lemma rotr64_rotl64 (x n : Nat) (hx : x < 2^64) (hn : n < 64) :
    rotr64 (rotl64 x n) n = x := by
  unfold rotr64 rotl64
  rw [Nat.mod_eq_of_lt hn]
  apply Nat.eq_of_testBit_eq
  intro i
  simp only [Nat.testBit_mod_two_pow, Nat.testBit_or, Nat.testBit_shiftLeft,
    Nat.testBit_shiftRight]
  rcases Nat.lt_or_ge i 64 with hi | hi
  · rcases Nat.lt_or_ge i (64 - n) with h1 | h1
    · have e1 : n + i < 64 := by omega
      have e2 : ¬ (64 - n ≤ i) := by omega
      have e3 : n ≤ n + i := by omega
      have e4 : n + i - n = i := by omega
      have e5 : x.testBit (64 - n + (n + i)) = false := testBit_high hx (by omega)
      simp [e1, e2, e3, e4, e5, hi]
    · have e1 : ¬ (n + i < 64) := by omega
      have e2 : 64 - n ≤ i := by omega
      have e3 : ¬ (n ≤ i - (64 - n)) := by omega
      have e4 : 64 - n + (i - (64 - n)) = i := by omega
      have e5 : i - (64 - n) < 64 := by omega
      simp [e1, e2, e3, e4, e5, hi]
  · have := testBit_high hx hi
    simp [this, hi]

lemma rotl64_rotr64 (x n : Nat) (hx : x < 2^64) (hn : n < 64) :
    rotl64 (rotr64 x n) n = x := by
  unfold rotr64 rotl64
  rw [Nat.mod_eq_of_lt hn]
  apply Nat.eq_of_testBit_eq
  intro i
  simp only [Nat.testBit_mod_two_pow, Nat.testBit_or, Nat.testBit_shiftLeft,
    Nat.testBit_shiftRight]
  rcases Nat.lt_or_ge i 64 with hi | hi
  · rcases Nat.lt_or_ge i n with h1 | h1
    · have e1 : ¬ (n ≤ i) := by omega
      have e2 : 64 - n + i < 64 := by omega
      have e3 : 64 - n ≤ 64 - n + i := by omega
      have e4 : 64 - n + i - (64 - n) = i := by omega
      have e5 : x.testBit (n + (64 - n + i)) = false := testBit_high hx (by omega)
      simp [e1, e2, e3, e4, e5, hi]
    · have e1 : n ≤ i := by omega
      have e2 : ¬ (64 - n + i < 64) := by omega
      have e3 : n + (i - n) = i := by omega
      have e4 : i - n < 64 := by omega
      have e5 : ¬ (64 ≤ i) := by omega
      simp [e1, e2, e3, e4, e5, hi]
  · have := testBit_high hx hi
    simp [this, hi]

lemma xor_cancel_right (a b : Nat) : (a ^^^ b) ^^^ b = a := by
  rw [Nat.xor_assoc, Nat.xor_self, Nat.xor_zero]

lemma wrapping_sub64_add (a b : Nat) (ha : a < 2^64) :
    wrapping_sub64 (wrapping_add64 a b) b = a := by
  unfold wrapping_add64 wrapping_sub64
  have hW : (2:Nat)^64 = 18446744073709551616 := by norm_num
  rw [hW]
  rw [hW] at ha
  omega

lemma wrapping_add64_sub (a b : Nat) (ha : a < 2^64) :
    wrapping_add64 (wrapping_sub64 a b) b = a := by
  unfold wrapping_add64 wrapping_sub64
  have hW : (2:Nat)^64 = 18446744073709551616 := by norm_num
  rw [hW]
  rw [hW] at ha
  omega

lemma round_lt (x y k : Nat) (hk : k < 2^64) :
    (round x y k).1 < 2^64 ∧ (round x y k).2 < 2^64 := by
  unfold round
  dsimp only
  refine ⟨Nat.xor_lt_two_pow (wrapping_add64_lt _ _) hk, ?_⟩
  exact Nat.xor_lt_two_pow (rotl64_lt _ _) (Nat.xor_lt_two_pow (wrapping_add64_lt _ _) hk)

lemma inv_round_lt (x y k : Nat) :
    (inv_round x y k).1 < 2^64 ∧ (inv_round x y k).2 < 2^64 := by
  unfold inv_round
  dsimp only
  exact ⟨rotl64_lt _ _, rotr64_lt _ _⟩

lemma inv_round_round (x y k : Nat) (hx : x < 2^64) (hy : y < 2^64) :
    inv_round (round x y k).1 (round x y k).2 k = (x, y) := by
  unfold round inv_round
  dsimp only
  rw [xor_cancel_right, xor_cancel_right,
      rotr64_rotl64 y BETA hy (by decide),
      wrapping_sub64_add _ y (rotr64_lt x ALPHA),
      rotl64_rotr64 x ALPHA hx (by decide)]

lemma round_inv_round (x y k : Nat) (hx : x < 2^64) (hy : y < 2^64) (hk : k < 2^64) :
    round (inv_round x y k).1 (inv_round x y k).2 k = (x, y) := by
  unfold inv_round round
  dsimp only
  rw [rotr64_rotl64 _ ALPHA (wrapping_sub64_lt _ _) (by decide),
      wrapping_add64_sub _ _ (Nat.xor_lt_two_pow hx hk),
      xor_cancel_right,
      rotl64_rotr64 _ BETA (Nat.xor_lt_two_pow hy hx) (by decide),
      xor_cancel_right]

lemma combine128_low (x y : Nat) (hy : y < 2^64) : combine128 x y % 2^64 = y := by
  unfold combine128
  apply Nat.eq_of_testBit_eq
  intro i
  simp only [Nat.testBit_mod_two_pow, Nat.testBit_or, Nat.testBit_shiftLeft]
  rcases Nat.lt_or_ge i 64 with hi | hi
  · have e1 : ¬ (64 ≤ i) := by omega
    simp [e1, hi]
  · have e2 : ¬ (i < 64) := by omega
    simp [testBit_high hy hi, e2]

lemma combine128_high (x y : Nat) (hx : x < 2^64) (hy : y < 2^64) :
    (combine128 x y >>> 64) % 2^64 = x := by
  unfold combine128
  apply Nat.eq_of_testBit_eq
  intro i
  simp only [Nat.testBit_mod_two_pow, Nat.testBit_or, Nat.testBit_shiftLeft,
    Nat.testBit_shiftRight]
  rcases Nat.lt_or_ge i 64 with hi | hi
  · have e1 : 64 ≤ 64 + i := by omega
    have e2 : 64 + i - 64 = i := by omega
    have e3 : y.testBit (64 + i) = false := testBit_high hy (by omega)
    simp [e1, e2, e3, hi]
  · have e2 : ¬ (i < 64) := by omega
    simp [testBit_high hx hi, e2]

lemma combine128_split (v : Nat) (hv : v < 2^128) :
    combine128 ((v >>> 64) % 2^64) (v % 2^64) = v := by
  unfold combine128
  apply Nat.eq_of_testBit_eq
  intro i
  simp only [Nat.testBit_mod_two_pow, Nat.testBit_or, Nat.testBit_shiftLeft,
    Nat.testBit_shiftRight]
  rcases Nat.lt_or_ge i 64 with hi | hi
  · have e1 : ¬ (64 ≤ i) := by omega
    simp [e1, hi]
  · rcases Nat.lt_or_ge i 128 with hi2 | hi2
    · have e1 : 64 ≤ i := hi
      have e2 : ¬ (i < 64) := by omega
      have e3 : i - 64 < 64 := by omega
      have e4 : 64 + (i - 64) = i := by omega
      simp [e1, e2, e3, e4]
    · have e2 : ¬ (i < 64) := by omega
      have e3 : ¬ (i - 64 < 64) := by omega
      simp [testBit_high hv hi2, e2, e3]

lemma combine128_lt (x y : Nat) (hx : x < 2^64) (hy : y < 2^64) :
    combine128 x y < 2^128 := by
  unfold combine128
  have h1 : x <<< 64 < 2^128 := by
    rw [Nat.shiftLeft_eq]
    calc x * 2^64 < 2^64 * 2^64 := by
          exact Nat.mul_lt_mul_of_lt_of_le hx (le_refl _) (by norm_num)
    _ = 2^128 := by norm_num
  have h2 : y < 2^128 := lt_trans hy (by norm_num)
  exact Nat.or_lt_two_pow h2 h1

lemma encryptRounds_cons (k : Nat) (ks : List Nat) (p : Nat × Nat) :
    encryptRounds (k :: ks) p = encryptRounds ks (round p.1 p.2 k) := rfl

lemma decryptRounds_cons (k : Nat) (ks : List Nat) (p : Nat × Nat) :
    decryptRounds (k :: ks) p = decryptRounds ks (inv_round p.1 p.2 k) := rfl

lemma decryptRounds_append (ks1 ks2 : List Nat) (p : Nat × Nat) :
    decryptRounds (ks1 ++ ks2) p = decryptRounds ks2 (decryptRounds ks1 p) := by
  unfold decryptRounds
  exact List.foldl_append _ _ _ _

lemma encryptRounds_lt (ks : List Nat) :
    ∀ p : Nat × Nat, p.1 < 2^64 → p.2 < 2^64 → (∀ k ∈ ks, k < 2^64) →
    (encryptRounds ks p).1 < 2^64 ∧ (encryptRounds ks p).2 < 2^64 := by
  induction ks with
  | nil => exact fun p h1 h2 _ => ⟨h1, h2⟩
  | cons k ks ih =>
    intro p h1 h2 hks
    rw [encryptRounds_cons]
    have hk : k < 2^64 := hks k (by simp)
    have hr := round_lt p.1 p.2 k hk
    exact ih _ hr.1 hr.2 (fun k2 hm => hks k2 (by simp [hm]))

lemma decryptRounds_lt (ks : List Nat) :
    ∀ p : Nat × Nat, p.1 < 2^64 → p.2 < 2^64 →
    (decryptRounds ks p).1 < 2^64 ∧ (decryptRounds ks p).2 < 2^64 := by
  induction ks with
  | nil => exact fun p h1 h2 => ⟨h1, h2⟩
  | cons k ks ih =>
    intro p h1 h2
    rw [decryptRounds_cons]
    have hr := inv_round_lt p.1 p.2 k
    exact ih _ hr.1 hr.2

lemma decrypt_encrypt_rounds (ks : List Nat) :
    ∀ p : Nat × Nat, p.1 < 2^64 → p.2 < 2^64 → (∀ k ∈ ks, k < 2^64) →
    decryptRounds ks.reverse (encryptRounds ks p) = p := by
  induction ks with
  | nil => exact fun p _ _ _ => rfl
  | cons k ks ih =>
    intro p h1 h2 hks
    have hk : k < 2^64 := hks k (by simp)
    rw [List.reverse_cons, encryptRounds_cons, decryptRounds_append]
    rw [ih (round p.1 p.2 k) (round_lt _ _ _ hk).1 (round_lt _ _ _ hk).2
        (fun k2 hm => hks k2 (by simp [hm]))]
    show inv_round (round p.1 p.2 k).1 (round p.1 p.2 k).2 k = p
    rw [inv_round_round p.1 p.2 k h1 h2]

lemma encrypt_decrypt_rounds (ks : List Nat) :
    ∀ p : Nat × Nat, p.1 < 2^64 → p.2 < 2^64 → (∀ k ∈ ks, k < 2^64) →
    encryptRounds ks (decryptRounds ks.reverse p) = p := by
  induction ks with
  | nil => exact fun p _ _ _ => rfl
  | cons k ks ih =>
    intro p h1 h2 hks
    have hk : k < 2^64 := hks k (by simp)
    rw [List.reverse_cons, decryptRounds_append]
    have hq := decryptRounds_lt ks.reverse p h1 h2
    show encryptRounds ks
        (round (inv_round (decryptRounds ks.reverse p).1 (decryptRounds ks.reverse p).2 k).1
               (inv_round (decryptRounds ks.reverse p).1 (decryptRounds ks.reverse p).2 k).2 k) = p
    rw [round_inv_round _ _ k hq.1 hq.2 hk, Prod.mk.eta]
    exact ih p h1 h2 (fun k2 hm => hks k2 (by simp [hm]))

lemma scheduleFrom_length (fuel : Nat) :
    ∀ i k1 k2 : Nat, (scheduleFrom fuel i k1 k2).length = fuel := by
  induction fuel with
  | zero => intro i k1 k2; rfl
  | succ f ih => intro i k1 k2; simp [scheduleFrom, ih]

lemma key_schedule_length (k1 k2 : Nat) : (key_schedule k1 k2).length = 32 :=
  scheduleFrom_length ROUNDS 0 k1 k2

lemma scheduleFrom_mem_lt (fuel : Nat) :
    ∀ i k1 k2 : Nat, k2 < 2^64 → i + fuel ≤ 2^64 →
    ∀ k ∈ scheduleFrom fuel i k1 k2, k < 2^64 := by
  induction fuel with
  | zero => intro i k1 k2 _ _ k hk; simp [scheduleFrom] at hk
  | succ f ih =>
    intro i k1 k2 h2 hif k hk
    simp only [scheduleFrom, List.mem_cons] at hk
    rcases hk with hk | hk
    · exact hk ▸ h2
    · have hi : i < 2^64 := by omega
      exact ih (i + 1) _ _ (round_lt k1 k2 i hi).2 (by omega) k hk

lemma key_schedule_mem_lt (k1 k2 : Nat) (h2 : k2 < 2^64) :
    ∀ k ∈ key_schedule k1 k2, k < 2^64 :=
  scheduleFrom_mem_lt ROUNDS 0 k1 k2 h2 (by norm_num [ROUNDS])

/-- Spec-side description of the key-schedule state: the pair (k1, k2)
after i sequential updates with the round function, where update number t
(counting from 0) uses t itself as the key argument. -/
def ksState : Nat → Nat → Nat → Nat × Nat
  | 0, k1, k2 => (k1, k2)
  | i + 1, k1, k2 => round (ksState i k1 k2).1 (ksState i k1 k2).2 i

/-- Head-recursive form of ksState, matching the recursion of
scheduleFrom: advance t updates starting from loop index i. -/
def ksStateFrom : Nat → Nat → Nat → Nat → Nat × Nat
  | 0, _, k1, k2 => (k1, k2)
  | t + 1, i, k1, k2 => ksStateFrom t (i + 1) (round k1 k2 i).1 (round k1 k2 i).2

lemma ksStateFrom_succ (t : Nat) :
    ∀ i k1 k2 : Nat, ksStateFrom (t + 1) i k1 k2
      = round (ksStateFrom t i k1 k2).1 (ksStateFrom t i k1 k2).2 (i + t) := by
  induction t with
  | zero => intro i k1 k2; simp [ksStateFrom]
  | succ t ih =>
    intro i k1 k2
    have h1 : ksStateFrom (t + 1 + 1) i k1 k2
        = ksStateFrom (t + 1) (i + 1) (round k1 k2 i).1 (round k1 k2 i).2 := rfl
    rw [h1, ih]
    have h2 : i + 1 + t = i + (t + 1) := by omega
    rw [h2]
    rfl

lemma ksState_eq_from : ∀ n k1 k2 : Nat, ksState n k1 k2 = ksStateFrom n 0 k1 k2 := by
  intro n
  induction n with
  | zero => intro k1 k2; rfl
  | succ n ih =>
    intro k1 k2
    have h1 : ksState (n + 1) k1 k2
        = round (ksState n k1 k2).1 (ksState n k1 k2).2 n := rfl
    rw [h1, ih, ksStateFrom_succ n 0 k1 k2, Nat.zero_add]

lemma scheduleFrom_getD (fuel : Nat) :
    ∀ i k1 k2 j : Nat, j < fuel →
    (scheduleFrom fuel i k1 k2).getD j 0 = (ksStateFrom j i k1 k2).2 := by
  induction fuel with
  | zero => intro i k1 k2 j hj; omega
  | succ f ih =>
    intro i k1 k2 j hj
    cases j with
    | zero => rfl
    | succ j =>
      show (scheduleFrom f (i + 1) (round k1 k2 i).1 (round k1 k2 i).2).getD j 0 = _
      rw [ih (i + 1) _ _ j (by omega)]
      rfl

lemma key_schedule_getD (k1 k2 j : Nat) (hj : j < 32) :
    (key_schedule k1 k2).getD j 0 = (ksState j k1 k2).2 := by
  rw [ksState_eq_from]
  exact scheduleFrom_getD ROUNDS 0 k1 k2 j hj

lemma speck_decrypt_encrypt (key v : Nat) (hv : v < 2^128) :
    (Speck.new key).decrypt ((Speck.new key).encrypt v) = v := by
  unfold Speck.decrypt Speck.encrypt Speck.new
  dsimp only
  have hks : ∀ k ∈ key_schedule ((key >>> 64) % 2^64) (key % 2^64), k < 2^64 :=
    key_schedule_mem_lt _ _ (Nat.mod_lt _ (by norm_num))
  have hv1 : (v >>> 64) % 2^64 < 2^64 := Nat.mod_lt _ (by norm_num)
  have hv2 : v % 2^64 < 2^64 := Nat.mod_lt _ (by norm_num)
  have hc := encryptRounds_lt (key_schedule ((key >>> 64) % 2^64) (key % 2^64))
    ((v >>> 64) % 2^64, v % 2^64) hv1 hv2 hks
  rw [combine128_high _ _ hc.1 hc.2, combine128_low _ _ hc.2, Prod.mk.eta,
      decrypt_encrypt_rounds _ _ hv1 hv2 hks]
  exact combine128_split v hv

lemma speck_encrypt_decrypt (key c : Nat) (hc : c < 2^128) :
    (Speck.new key).encrypt ((Speck.new key).decrypt c) = c := by
  unfold Speck.decrypt Speck.encrypt Speck.new
  dsimp only
  have hks : ∀ k ∈ key_schedule ((key >>> 64) % 2^64) (key % 2^64), k < 2^64 :=
    key_schedule_mem_lt _ _ (Nat.mod_lt _ (by norm_num))
  have hc1 : (c >>> 64) % 2^64 < 2^64 := Nat.mod_lt _ (by norm_num)
  have hc2 : c % 2^64 < 2^64 := Nat.mod_lt _ (by norm_num)
  have hq := decryptRounds_lt (key_schedule ((key >>> 64) % 2^64) (key % 2^64)).reverse
    ((c >>> 64) % 2^64, c % 2^64) hc1 hc2
  rw [combine128_high _ _ hq.1 hq.2, combine128_low _ _ hq.2, Prod.mk.eta,
      encrypt_decrypt_rounds _ _ hc1 hc2 hks]
  exact combine128_split c hc

lemma speck_encrypt_lt (key v : Nat) : (Speck.new key).encrypt v < 2^128 := by
  unfold Speck.encrypt Speck.new
  dsimp only
  have hks : ∀ k ∈ key_schedule ((key >>> 64) % 2^64) (key % 2^64), k < 2^64 :=
    key_schedule_mem_lt _ _ (Nat.mod_lt _ (by norm_num))
  have hv1 : (v >>> 64) % 2^64 < 2^64 := Nat.mod_lt _ (by norm_num)
  have hv2 : v % 2^64 < 2^64 := Nat.mod_lt _ (by norm_num)
  have hc := encryptRounds_lt (key_schedule ((key >>> 64) % 2^64) (key % 2^64))
    ((v >>> 64) % 2^64, v % 2^64) hv1 hv2 hks
  exact combine128_lt _ _ hc.1 hc.2

lemma speck_decrypt_lt (key c : Nat) : (Speck.new key).decrypt c < 2^128 := by
  unfold Speck.decrypt Speck.new
  dsimp only
  have hc1 : (c >>> 64) % 2^64 < 2^64 := Nat.mod_lt _ (by norm_num)
  have hc2 : c % 2^64 < 2^64 := Nat.mod_lt _ (by norm_num)
  have hq := decryptRounds_lt (key_schedule ((key >>> 64) % 2^64) (key % 2^64)).reverse
    ((c >>> 64) % 2^64, c % 2^64) hc1 hc2
  exact combine128_lt _ _ hq.1 hq.2

/-- Formula for the forward round written exactly as the spec states it:
first x2 = (rotate_right(x, 8) + y mod 2^64) XOR k, then
y2 = rotate_left(y, 3) XOR x2. -/
def roundSpec (x y k : Nat) : Nat × Nat :=
  let x2 := ((rotr64 x 8 + y) % 2^64) ^^^ k
  (x2, (rotl64 y 3) ^^^ x2)

/-- Formula for the inverse round written exactly as the spec states it:
first y2 = rotate_right(y XOR x, 3), then
x2 = rotate_left((x XOR k) - y2 mod 2^64, 8), with the modular
subtraction written on Nat as ((x XOR k) + 2^64 - y2) mod 2^64. -/
def invRoundSpec (x y k : Nat) : Nat × Nat :=
  let y2 := rotr64 (y ^^^ x) 3
  (rotl64 (((x ^^^ k) + 2^64 - y2) % 2^64) 8, y2)

/-! Claim theorems. -/

/-- C1: for every pair of 64-bit half-blocks x, y and every 64-bit round
key k, applying the inverse round function to the output of the forward
round function with the same key returns the original pair. -/
theorem C1_inv_round_round_id (x y k : Nat)
    (hx : x < 2^64) (hy : y < 2^64) (hk : k < 2^64) :
    inv_round (round x y k).1 (round x y k).2 k = (x, y) :=
  inv_round_round x y k hx hy

theorem C1_inv_round_round_id_witness :
    inv_round (round 3 5 7).1 (round 3 5 7).2 7 = (3, 5) :=
  C1_inv_round_round_id 3 5 7 (by norm_num) (by norm_num) (by norm_num)

/-- C2: for every 128-bit key and every 128-bit value v, on the cipher
instance constructed from that key, decrypt (encrypt v) = v and
encrypt (decrypt v) = v, so encrypt is a permutation of the 128-bit
blocks and decrypt is its inverse. -/
theorem C2_encrypt_decrypt_inverse (key v : Nat)
    (hkey : key < 2^128) (hv : v < 2^128) :
    (Speck.new key).decrypt ((Speck.new key).encrypt v) = v ∧
    (Speck.new key).encrypt ((Speck.new key).decrypt v) = v :=
  ⟨speck_decrypt_encrypt key v hv, speck_encrypt_decrypt key v hv⟩

theorem C2_encrypt_decrypt_inverse_witness :
    (Speck.new 1).decrypt ((Speck.new 1).encrypt 2) = 2 ∧
    (Speck.new 1).encrypt ((Speck.new 1).decrypt 2) = 2 :=
  C2_encrypt_decrypt_inverse 1 2 (by norm_num) (by norm_num)

set_option maxRecDepth 10000 in
/-- C3: for the key 0x0f0e0d0c0b0a09080706050403020100, encrypting the
plaintext 0x6c617669757165207469206564616d20 yields the ciphertext
0xa65d9851797832657860fedf5c570d18, and decrypting that ciphertext with
the same instance yields that plaintext (the published Speck128/128
known-answer vector). -/
theorem C3_known_answer_vector :
    (Speck.new 0x0f0e0d0c0b0a09080706050403020100).encrypt
        0x6c617669757165207469206564616d20
      = 0xa65d9851797832657860fedf5c570d18 ∧
    (Speck.new 0x0f0e0d0c0b0a09080706050403020100).decrypt
        0xa65d9851797832657860fedf5c570d18
      = 0x6c617669757165207469206564616d20 :=
  ⟨by decide, by decide⟩

/-- C4: constructing a cipher from a 128-bit key splits it into
k1 = key >> 64 and k2 = key mod 2^64 and produces a schedule of exactly
32 round keys where entry i is the value of k2 after i sequential
round updates that use the round index itself as the key argument. -/
theorem C4_key_schedule_structure (key : Nat) (hkey : key < 2^128) :
    (Speck.new key).schedule.length = 32 ∧
    ∀ j, j < 32 →
      (Speck.new key).schedule.getD j 0 = (ksState j (key >>> 64) (key % 2^64)).2 := by
  have hsplit : (key >>> 64) % 2^64 = key >>> 64 := by
    apply Nat.mod_eq_of_lt
    rw [Nat.shiftRight_eq_div_pow]
    apply Nat.div_lt_of_lt_mul
    calc key < 2^128 := hkey
    _ = 2^64 * 2^64 := by norm_num
  constructor
  · exact key_schedule_length _ _
  · intro j hj
    show (key_schedule ((key >>> 64) % 2^64) (key % 2^64)).getD j 0 = _
    rw [hsplit]
    exact key_schedule_getD _ _ j hj

theorem C4_key_schedule_structure_witness :
    (Speck.new 5).schedule.length = 32 ∧
    (Speck.new 5).schedule.getD 3 0 = (ksState 3 ((5 : Nat) >>> 64) (5 % 2^64)).2 :=
  ⟨(C4_key_schedule_structure 5 (by norm_num)).1,
   (C4_key_schedule_structure 5 (by norm_num)).2 3 (by norm_num)⟩

/-- C5: the forward round function computes, in order,
x2 = (rotate_right(x, 8) + y mod 2^64) XOR k and then
y2 = rotate_left(y, 3) XOR x2, with the rotation constants fixed at
ALPHA = 8 and BETA = 3. -/
theorem C5_round_matches_spec :
    ALPHA = 8 ∧ BETA = 3 ∧ ∀ x y k : Nat, round x y k = roundSpec x y k :=
  ⟨rfl, rfl, fun _ _ _ => rfl⟩

/-- C6: the inverse round function computes, in order,
y2 = rotate_right(y XOR x, 3) and then
x2 = rotate_left((x XOR k) - y2 mod 2^64, 8). -/
theorem C6_inv_round_matches_spec :
    ALPHA = 8 ∧ BETA = 3 ∧ ∀ x y k : Nat, inv_round x y k = invRoundSpec x y k := by
  refine ⟨rfl, rfl, fun x y k => ?_⟩
  unfold inv_round invRoundSpec wrapping_sub64
  dsimp only
  have hr : rotr64 (y ^^^ x) BETA < 2^64 := rotr64_lt _ _
  have hB : BETA = 3 := rfl
  have hW : (2 : Nat)^64 = 18446744073709551616 := by norm_num
  rw [hB] at hr ⊢
  congr 2
  rw [hW] at hr ⊢
  omega

/-- C7: for every 128-bit key and every 128-bit block, the ECB interface
operations on the Speck instance built from that key return exactly the
raw Speck encrypt and decrypt results. -/
theorem C7_ecb_forwarding (key p c : Nat)
    (hkey : key < 2^128) (hp : p < 2^128) (hc : c < 2^128) :
    speckECB.encrypt (Speck.new key) p = (Speck.new key).encrypt p ∧
    speckECB.decrypt (Speck.new key) c = (Speck.new key).decrypt c :=
  ⟨rfl, rfl⟩

theorem C7_ecb_forwarding_witness :
    speckECB.encrypt (Speck.new 0) 1 = (Speck.new 0).encrypt 1 ∧
    speckECB.decrypt (Speck.new 0) 2 = (Speck.new 0).decrypt 2 :=
  C7_ecb_forwarding 0 1 2 (by norm_num) (by norm_num) (by norm_num)

/-- C8: every operation is total on its fixed-width domain: the round and
inverse round functions map 64-bit inputs to 64-bit outputs (wrapping, no
overflow failure), the key schedule always has exactly ROUNDS entries so
every write index below ROUNDS is in bounds, and encrypt and decrypt
return 128-bit values on all inputs with no failure branch. -/
theorem C8_totality :
    (∀ x y k : Nat, x < 2^64 → y < 2^64 → k < 2^64 →
      (round x y k).1 < 2^64 ∧ (round x y k).2 < 2^64) ∧
    (∀ x y k : Nat, x < 2^64 → y < 2^64 → k < 2^64 →
      (inv_round x y k).1 < 2^64 ∧ (inv_round x y k).2 < 2^64) ∧
    (∀ k1 k2 : Nat, (key_schedule k1 k2).length = ROUNDS ∧
      ∀ i, i < ROUNDS → i < (key_schedule k1 k2).length) ∧
    (∀ key v : Nat, (Speck.new key).encrypt v < 2^128 ∧ (Speck.new key).decrypt v < 2^128) := by
  refine ⟨fun x y k _ _ hk => round_lt x y k hk,
          fun x y k _ _ _ => inv_round_lt x y k,
          fun k1 k2 => ⟨key_schedule_length k1 k2, fun i hi => ?_⟩,
          fun key v => ⟨speck_encrypt_lt key v, speck_decrypt_lt key v⟩⟩
  rw [key_schedule_length k1 k2]
  exact hi

theorem C8_totality_witness :
    ((round 1 2 3).1 < 2^64 ∧ (round 1 2 3).2 < 2^64) ∧
    ((inv_round 1 2 3).1 < 2^64 ∧ (inv_round 1 2 3).2 < 2^64) ∧
    ((key_schedule 4 5).length = ROUNDS ∧ 6 < (key_schedule 4 5).length) ∧
    ((Speck.new 7).encrypt 8 < 2^128 ∧ (Speck.new 7).decrypt 8 < 2^128) :=
  ⟨C8_totality.1 1 2 3 (by norm_num) (by norm_num) (by norm_num),
   C8_totality.2.1 1 2 3 (by norm_num) (by norm_num) (by norm_num),
   ⟨(C8_totality.2.2.1 4 5).1, (C8_totality.2.2.1 4 5).2 6 (by decide)⟩,
   C8_totality.2.2.2 7 8⟩

/-- C9: for every key, the first stored round key (schedule entry 0)
equals the low 64 bits of the master key verbatim. -/
theorem C9_schedule_entry_zero (key : Nat) :
    (Speck.new key).schedule.getD 0 0 = key % 2^64 := rfl

/-- C10: for every pair of 64-bit half-blocks x, y and every 64-bit round
key k, the forward round function also undoes the inverse round function,
so inv_round is a two-sided inverse of round. -/
theorem C10_round_inv_round_id (x y k : Nat)
    (hx : x < 2^64) (hy : y < 2^64) (hk : k < 2^64) :
    round (inv_round x y k).1 (inv_round x y k).2 k = (x, y) :=
  round_inv_round x y k hx hy hk

theorem C10_round_inv_round_id_witness :
    round (inv_round 11 13 17).1 (inv_round 11 13 17).2 17 = (11, 13) :=
  C10_round_inv_round_id 11 13 17 (by norm_num) (by norm_num) (by norm_num)

end Speck128
